import Mathlib

/-!
# Verification of `coding_puzzle_tools` (`coding_puzzle_tools/io.py`)

A shallow embedding of the library's two functions and its decorator, together
with theorems settling the specification's claims.

Modelling conventions:

* A `pathlib.Path` value is embedded as its `parts` tuple, a `List String` of
  path segments (exactly what `Path.parts` yields, so an absolute path carries
  a leading `"/"` segment).
* Python strings are Lean `String`s; character-level work happens on `.data`
  (`List Char`).
* Python `int(s)` is embedded as `pyIntL : List Char → Option Int`, accepting
  an optionally signed run of ASCII digits, with surrounding whitespace
  stripped and single underscores permitted between digits (CPython's
  grammar for integer literals passed to `int`); `none` embeds the raised
  `ValueError`.
* Fallible functions return `Except String α`; the error string names the
  Python exception that the source raises at that point.
* The filesystem seen by `read_input` is an explicit map
  `List String → Option String` from a path's segments to the file's text
  (`none` embeds `FileNotFoundError` from `open`).
* The interpreter call stack seen by `sys._getframe` is an explicit list of
  the source-file names of the frames above the wrapper, innermost first.
-/

/-! ## Character classes and Python `int()` parsing -/

/-- ASCII decimal digit, the digits accepted by Python `int()` (ASCII range). -/
def isDig (c : Char) : Bool := decide (48 ≤ c.toNat) && decide (c.toNat ≤ 57)

/-- The whitespace characters Python strips around the argument of `int()` and
in `str.strip()` (ASCII range): space, tab, LF, CR, VT, FF. -/
def isPyWs (c : Char) : Bool :=
  decide (c.toNat = 32) || decide (c.toNat = 9) || decide (c.toNat = 10) ||
  decide (c.toNat = 13) || decide (c.toNat = 11) || decide (c.toNat = 12)

/-- Strip leading and trailing Python whitespace from a character list
(`str.strip()` and the whitespace trimming done by `int()`). -/
def stripWs (cs : List Char) : List Char :=
  ((cs.dropWhile isPyWs).reverse.dropWhile isPyWs).reverse

/-- Numeric value of an ASCII digit character. -/
def digitVal (c : Char) : Nat := c.toNat - 48

/-- Value of a big-endian list of ASCII digit characters. -/
def valD (cs : List Char) : Nat := cs.foldl (fun a c => a * 10 + digitVal c) 0

/-- After the first digit of an `int()` literal: every later character is a
digit, except that a single underscore may stand between two digits. The flag
records whether the previous character was an underscore, which forbids a
doubled or trailing underscore. -/
def duGo : Bool → List Char → Bool
  | pu, [] => !pu
  | pu, c :: rest =>
    if c = '_' then (if pu then false else duGo true rest)
    else isDig c && duGo false rest

/-- The digit part of an `int()` literal: nonempty, starts with a digit, and
single underscores may separate digit groups (CPython's rule). -/
def digitsU (cs : List Char) : Bool :=
  match cs with
  | [] => false
  | c :: rest => isDig c && duGo false rest

/-- Drop the underscores of an `int()` literal, leaving the digits. -/
def stripU (cs : List Char) : List Char := cs.filter (fun c => decide (c ≠ '_'))

/-- Python `int(s)` on a character list: strip whitespace, read an optional
sign, then a digit run (underscore separators allowed). `none` embeds the
`ValueError` that `int` raises on any other shape. -/
def pyIntL (cs0 : List Char) : Option Int :=
  let cs := stripWs cs0
  match cs with
  | [] => none
  | c :: rest =>
    if c = '+' then
      if digitsU rest then some ((valD (stripU rest) : Nat) : Int) else none
    else if c = '-' then
      if digitsU rest then some (-((valD (stripU rest) : Nat) : Int)) else none
    else
      if digitsU (c :: rest) then some ((valD (stripU (c :: rest)) : Nat) : Int) else none

/-! ## Decimal rendering (Python `str` on `int`, and `f"{day:02d}"`) -/

/-- One decimal digit as a character. -/
def digitChar (n : Nat) : Char :=
  match n with
  | 0 => '0' | 1 => '1' | 2 => '2' | 3 => '3' | 4 => '4'
  | 5 => '5' | 6 => '6' | 7 => '7' | 8 => '8' | 9 => '9'
  | _ => '*'

/-- Fuel-driven digit accumulator: prepend the decimal digits of `n` to `acc`.
Structural recursion on the fuel keeps the definition kernel-reducible. -/
def natDigitsF : Nat → Nat → List Char → List Char
  | 0, _, acc => acc
  | fuel + 1, n, acc =>
    if n = 0 then acc else natDigitsF fuel (n / 10) (digitChar (n % 10) :: acc)

/-- Decimal rendering of a natural number, as Python `str` produces it. -/
def natReprL (n : Nat) : List Char :=
  if n = 0 then ['0'] else natDigitsF (n + 1) n []

/-- Decimal rendering of an integer, as Python `str` produces it. -/
def intReprL (i : Int) : List Char :=
  if i < 0 then '-' :: natReprL i.natAbs else natReprL i.toNat

/-- Python `f"{d:02d}"`: pad the decimal rendering with zeros to width two.
Only a single nonnegative digit needs padding; every other integer already
renders with at least two characters. -/
def pad2L (d : Int) : List Char :=
  if 0 ≤ d ∧ d < 10 then '0' :: intReprL d else intReprL d

/-! ## Splitting and path-name helpers -/

/-- Python `s.split(sep)` for a one-character separator: `splitChar sep cs`
cuts `cs` at every occurrence of `sep`; the result is always nonempty and
`[""]`-like on empty input, matching `"".split(sep) == [""]`. -/
def splitChar (sep : Char) : List Char → List (List Char)
  | [] => [[]]
  | c :: rest =>
    if c = sep then [] :: splitChar sep rest
    else
      let r := splitChar sep rest
      (c :: r.headD []) :: r.tail

/-- Index of the last `'.'` in a character list, if any (Python
`name.rfind('.')` restricted to a hit). -/
def lastDot : List Char → Option Nat
  | [] => none
  | c :: rest =>
    match lastDot rest with
    | some i => some (i + 1)
    | none => if c = '.' then some 0 else none

/-- Python `PurePath.stem` on a file name: drop the final suffix, which exists
exactly when the last dot sits strictly inside the name (CPython's
`0 < i < len(name) - 1` rule). -/
def pyStem (name : List Char) : List Char :=
  match lastDot name with
  | none => name
  | some i => if 0 < i ∧ i < name.length - 1 then name.take i else name

/-- Python `day_part.replace("d", "")`: remove every occurrence of the
character `'d'`. -/
def removeD (cs : List Char) : List Char := cs.filter (fun c => decide (c ≠ 'd'))

/-! ## `puzzle_info` -/

/-- The second-to-last path segment, `filepath.parts[-2]` in the source
(the year directory). Total only because callers check `2 ≤ parts.length`. -/
def yearToken (parts : List String) : List Char :=
  (parts.getD (parts.length - 2) "").data

/-- `filepath.stem` of the last path segment: the file name without its
extension (the day token before splitting). -/
def stemOf (parts : List String) : List Char :=
  pyStem (parts.getLastD "").data

/-- `filename.split("_")[0]`: the stem's prefix before the first underscore. -/
def dayToken (parts : List String) : List Char :=
  (splitChar '_' (stemOf parts)).headD []

/-- `filename.split("_")[1]`: the stem's segment between the first and second
underscore. Total only because the source reads it only when an underscore is
present, which makes the split list at least two long. -/
def partTokenOf (parts : List String) : List Char :=
  (splitChar '_' (stemOf parts)).getD 1 []

/-- `parent_dir.startswith("y")`. -/
def startsWithY (t : List Char) : Bool := t.head? = some 'y'

/-- The source's year computation: `int(parent_dir[1:])` when the token starts
with `"y"`, else `int(parent_dir)`. -/
def yearParse (t : List Char) : Option Int :=
  if startsWithY t then pyIntL t.tail else pyIntL t

/-- `puzzle_info` before day formatting: year, day and optional part as
integers. Mirrors the source's statement order, so the earliest failing parse
determines the error: `filepath.parts[-2]` (IndexError when the path is too
short), `int` on the year token, `int` on the day token with its `'d'`s
removed, then `int` on the part token when the stem has an underscore. -/
def puzzle_info_core (parts : List String) : Except String (Int × Int × Option Int) :=
  if parts.length < 2 then .error "IndexError: tuple index out of range"
  else
    match yearParse (yearToken parts) with
    | none => .error "ValueError: invalid year"
    | some year =>
      match pyIntL (removeD (dayToken parts)) with
      | none => .error "ValueError: invalid day"
      | some day =>
        if '_' ∈ stemOf parts then
          match pyIntL (partTokenOf parts) with
          | none => .error "ValueError: invalid part"
          | some p => .ok (year, day, some p)
        else .ok (year, day, none)

/-- Result record of `puzzle_info`: the day is an `Int` when `pad_day` is
false and the zero-padded string when it is true, exactly the union type the
source returns. -/
structure PuzzleInfo where
  year : Int
  day : Int ⊕ String
  part : Option Int
deriving DecidableEq, Repr

/-- `puzzle_info(filepath, pad_day)` from the source: parse year, day, part,
then format the day as `f"{day:02d}"` when `pad_day` is true. -/
def puzzle_info (parts : List String) (pad_day : Bool) : Except String PuzzleInfo :=
  match puzzle_info_core parts with
  | .error e => .error e
  | .ok (y, d, p) =>
    .ok ⟨y, if pad_day then Sum.inr (String.mk (pad2L d)) else Sum.inl d, p⟩

/-! ## `read_input` -/

/-- Mode for reading input files (`InputMode` in the source). -/
inductive InputMode
  | LINES
  | TEXT
deriving DecidableEq, Repr

/-- Python `f.readlines()` on a file whose full text is `cs`: the lines in
order, each keeping its `'\n'` terminator except possibly the last. -/
def readlinesL : List Char → List (List Char)
  | [] => []
  | c :: rest =>
    if c = '\n' then ['\n'] :: readlinesL rest
    else
      match readlinesL rest with
      | [] => [[c]]
      | l :: ls => (c :: l) :: ls

/-- Python `line.rstrip("\n")`: remove every trailing `'\n'`. -/
def rstripNlL (cs : List Char) : List Char :=
  (cs.reverse.dropWhile (fun c => decide (c = '\n'))).reverse

/-- Specification-side view of a file's lines: split the text at every
newline and drop the final empty piece that a trailing newline leaves
behind, yielding the lines without their terminators. -/
def dropLastEmpty : List (List Char) → List (List Char)
  | [] => []
  | [x] => if x = [] then [] else [x]
  | x :: xs => x :: dropLastEmpty xs

/-- The segments contributed by a relative path string under `pathlib` joining:
split on `'/'` and drop empty and `"."` components, as `PurePath` does. -/
def relSegs (cs : List Char) : List String :=
  ((splitChar '/' cs).filter (fun t => decide (t ≠ []) && decide (t ≠ ['.']))).map String.mk

/-- Python `Path.__truediv__`: join a base path (as segments) with a path
string. An absolute right operand replaces the base, otherwise its cleaned
segments are appended. -/
def pyJoin (base : List String) (cs : List Char) : List String :=
  if cs.head? = some '/' then "/" :: relSegs cs else base ++ relSegs cs

/-- The `input_path` computation inside `read_input`:
`calling_file.parent / data_dir / str(year) / f"{filetype}{day}[_{part}].txt"`,
with `puzzle_info` invoked with `pad_day=True`. Errors are the parse errors
of `puzzle_info`. -/
def read_input_path (parts : List String) (test : Bool) (data_dir : String) :
    Except String (List String) :=
  match puzzle_info parts true with
  | .error e => .error e
  | .ok info =>
    let dayChars := match info.day with
      | Sum.inl d => pad2L d
      | Sum.inr s => s.data
    let ftypeChars := if test then "test".data else "input".data
    let fnameChars := match info.part with
      | none => ftypeChars ++ dayChars ++ ['.', 't', 'x', 't']
      | some p => ftypeChars ++ dayChars ++ '_' :: intReprL p ++ ['.', 't', 'x', 't']
    .ok (pyJoin (pyJoin (pyJoin parts.dropLast data_dir.data) (intReprL info.year)) fnameChars)

/-- `read_input` from the source, over an explicit filesystem `fs` mapping a
path's segments to the text of the file there (`none` embeds the
`FileNotFoundError` that `open` raises). LINES mode returns `readlines()`
output, each line `rstrip("\n")`-ed when `strip`; TEXT mode returns `read()`
output, `strip()`-ed when `strip`. -/
def read_input (parts : List String) (fs : List String → Option String)
    (test : Bool) (strip : Bool) (data_dir : String) (mode : InputMode) :
    Except String (String ⊕ List String) :=
  match read_input_path parts test data_dir with
  | .error e => .error e
  | .ok input_path =>
    match fs input_path with
    | none => .error "FileNotFoundError"
    | some content =>
      match mode with
      | InputMode.LINES =>
        let ls := (readlinesL content.data).map String.mk
        .ok (Sum.inr (if strip then ls.map (fun l => String.mk (rstripNlL l.data)) else ls))
      | InputMode.TEXT =>
        .ok (Sum.inl (if strip then String.mk (stripWs content.data) else content))

/-! ## Caller-context decorator -/

/-- `with_calling_file_context` from the source, with the Python call stack
made explicit: `callerFrames` lists the source-file names of the frames above
the wrapper, innermost first, so its head is what `sys._getframe(1)` yields.
The wrapper passes that file name as the first argument and forwards the
remaining arguments (bundled as `a`) unchanged; with no caller frame,
`sys._getframe(1)` raises `ValueError`. -/
def with_calling_file_context {α β : Type} (func : String → α → β)
    (callerFrames : List String) (a : α) : Except String β :=
  match callerFrames with
  | [] => .error "ValueError: call stack is not deep enough"
  | caller :: _ => .ok (func caller a)

/-! ## Basic character lemmas -/

theorem char_ne_of_toNat_ne {c d : Char} (h : c.toNat ≠ d.toNat) : c ≠ d :=
  fun he => h (he ▸ rfl)

theorem isDig_bounds {c : Char} (h : isDig c = true) : 48 ≤ c.toNat ∧ c.toNat ≤ 57 := by
  simpa [isDig] using h

theorem isDig_not_ws {c : Char} (h : isDig c = true) : isPyWs c = false := by
  have hb := isDig_bounds h
  simp only [isPyWs, Bool.or_eq_false_iff, decide_eq_false_iff_not]
  omega

theorem isDig_ne_plus {c : Char} (h : isDig c = true) : c ≠ '+' :=
  char_ne_of_toNat_ne
    (by have := isDig_bounds h; have hv : '+'.toNat = 43 := rfl; omega)

theorem isDig_ne_minus {c : Char} (h : isDig c = true) : c ≠ '-' :=
  char_ne_of_toNat_ne
    (by have := isDig_bounds h; have hv : '-'.toNat = 45 := rfl; omega)

theorem isDig_ne_underscore {c : Char} (h : isDig c = true) : c ≠ '_' :=
  char_ne_of_toNat_ne
    (by have := isDig_bounds h; have hv : '_'.toNat = 95 := rfl; omega)

theorem isDig_ne_d {c : Char} (h : isDig c = true) : c ≠ 'd' :=
  char_ne_of_toNat_ne
    (by have := isDig_bounds h; have hv : 'd'.toNat = 100 := rfl; omega)

theorem isDig_ne_dot {c : Char} (h : isDig c = true) : c ≠ '.' :=
  char_ne_of_toNat_ne
    (by have := isDig_bounds h; have hv : '.'.toNat = 46 := rfl; omega)

theorem isDig_ne_slash {c : Char} (h : isDig c = true) : c ≠ '/' :=
  char_ne_of_toNat_ne
    (by have := isDig_bounds h; have hv : '/'.toNat = 47 := rfl; omega)

theorem isDig_ne_nl {c : Char} (h : isDig c = true) : c ≠ '\n' :=
  char_ne_of_toNat_ne
    (by have := isDig_bounds h; have hv : '\n'.toNat = 10 := rfl; omega)

/-! ## `stripWs`, `digitsU`, `stripU`, `pyIntL` on clean inputs -/

theorem dropWhile_eq_self_of_head {p : Char → Bool} :
    ∀ l : List Char, (∀ c ∈ l, p c = false) → l.dropWhile p = l := by
  intro l h
  cases l with
  | nil => rfl
  | cons c rest => simp [List.dropWhile_cons, h c (List.mem_cons_self c rest)]

theorem stripWs_eq_self {cs : List Char} (h : ∀ c ∈ cs, isPyWs c = false) :
    stripWs cs = cs := by
  unfold stripWs
  rw [dropWhile_eq_self_of_head cs h,
      dropWhile_eq_self_of_head cs.reverse (fun c hc => h c (List.mem_reverse.mp hc)),
      List.reverse_reverse]

theorem duGo_digits : ∀ cs : List Char, (∀ c ∈ cs, isDig c = true) →
    duGo false cs = true := by
  intro cs
  induction cs with
  | nil => intro _; rfl
  | cons c rest ih =>
    intro h
    have hc := h c (List.mem_cons_self c rest)
    rw [duGo, if_neg (isDig_ne_underscore hc), hc, Bool.true_and]
    exact ih (fun c' hc' => h c' (List.mem_cons_of_mem c hc'))

theorem digitsU_of_digits {cs : List Char} (hne : cs ≠ [])
    (h : ∀ c ∈ cs, isDig c = true) : digitsU cs = true := by
  cases cs with
  | nil => exact absurd rfl hne
  | cons c rest =>
    rw [digitsU, h c (List.mem_cons_self c rest), Bool.true_and]
    exact duGo_digits rest (fun c' hc' => h c' (List.mem_cons_of_mem c hc'))

theorem stripU_eq_self {cs : List Char} (h : ∀ c ∈ cs, isDig c = true) :
    stripU cs = cs := by
  unfold stripU
  rw [List.filter_eq_self]
  intro c hc
  simpa using isDig_ne_underscore (h c hc)

/-- Python `int` on a nonempty all-digit token yields its decimal value. -/
theorem pyIntL_digits {cs : List Char} (hne : cs ≠ [])
    (h : ∀ c ∈ cs, isDig c = true) : pyIntL cs = some ((valD cs : Nat) : Int) := by
  have hws : stripWs cs = cs := stripWs_eq_self (fun c hc => isDig_not_ws (h c hc))
  cases cs with
  | nil => exact absurd rfl hne
  | cons c rest =>
    have hc := h c (List.mem_cons_self c rest)
    rw [pyIntL]
    simp only [hws]
    rw [if_neg (isDig_ne_plus hc), if_neg (isDig_ne_minus hc),
        if_pos (digitsU_of_digits hne h), stripU_eq_self h]

/-! ## Decimal rendering lemmas -/

theorem digitChar_isDig {n : Nat} (h : n < 10) : isDig (digitChar n) = true := by
  interval_cases n <;> decide

theorem digitVal_digitChar {n : Nat} (h : n < 10) : digitVal (digitChar n) = n := by
  interval_cases n <;> decide

theorem natDigitsF_zero : ∀ (fuel : Nat) (acc : List Char), natDigitsF fuel 0 acc = acc := by
  intro fuel acc
  cases fuel <;> simp [natDigitsF]

theorem natDigitsF_acc : ∀ (fuel n : Nat) (acc : List Char),
    natDigitsF fuel n acc = natDigitsF fuel n [] ++ acc := by
  intro fuel
  induction fuel with
  | zero => intro n acc; simp [natDigitsF]
  | succ fuel ih =>
    intro n acc
    by_cases hn : n = 0
    · simp [natDigitsF, hn]
    · rw [natDigitsF, if_neg hn, natDigitsF, if_neg hn,
        ih (n / 10) (digitChar (n % 10) :: acc), ih (n / 10) [digitChar (n % 10)],
        List.append_assoc]
      rfl

theorem natDigitsF_small {n : Nat} (h0 : 0 < n) (h9 : n < 10) :
    ∀ (fuel : Nat) (acc : List Char), n < fuel → natDigitsF fuel n acc = digitChar n :: acc := by
  intro fuel acc hf
  cases fuel with
  | zero => omega
  | succ f =>
    rw [natDigitsF, if_neg (by omega)]
    have h10 : n / 10 = 0 := Nat.div_eq_of_lt h9
    have hm : n % 10 = n := Nat.mod_eq_of_lt h9
    rw [h10, hm, natDigitsF_zero]

theorem valD_append_digit (xs : List Char) (c : Char) :
    valD (xs ++ [c]) = valD xs * 10 + digitVal c := by
  simp [valD, List.foldl_append]

theorem natDigitsF_readback : ∀ n : Nat, ∀ fuel : Nat, 0 < n → n < fuel →
    valD (natDigitsF fuel n []) = n := by
  intro n
  induction n using Nat.strong_induction_on with
  | _ n ih =>
    intro fuel h0 hf
    cases fuel with
    | zero => omega
    | succ f =>
      rw [natDigitsF, if_neg (by omega),
        natDigitsF_acc f (n / 10) [digitChar (n % 10)], valD_append_digit,
        digitVal_digitChar (Nat.mod_lt n (by omega))]
      by_cases h10 : n / 10 = 0
      · rw [h10, natDigitsF_zero]
        have : valD [] = 0 := rfl
        omega
      · rw [ih (n / 10) (Nat.div_lt_self h0 (by omega)) f (by omega) (by omega)]
        omega

theorem natDigitsF_digits : ∀ (fuel n : Nat) (acc : List Char),
    (∀ c ∈ acc, isDig c = true) → ∀ c ∈ natDigitsF fuel n acc, isDig c = true := by
  intro fuel
  induction fuel with
  | zero => intro n acc hacc; simpa [natDigitsF] using hacc
  | succ f ih =>
    intro n acc hacc
    by_cases hn : n = 0
    · simpa [natDigitsF, hn] using hacc
    · rw [natDigitsF, if_neg hn]
      refine ih (n / 10) _ ?_
      intro c hc
      rcases List.mem_cons.mp hc with rfl | hc'
      · exact digitChar_isDig (Nat.mod_lt n (by omega))
      · exact hacc c hc'

theorem natDigitsF_ne_nil {n fuel : Nat} (h0 : 0 < n) (hf : n < fuel) (acc : List Char) :
    natDigitsF fuel n acc ≠ [] := by
  cases fuel with
  | zero => omega
  | succ f =>
    rw [natDigitsF, if_neg (by omega), natDigitsF_acc]
    simp

theorem natReprL_ne_nil (n : Nat) : natReprL n ≠ [] := by
  unfold natReprL
  by_cases hn : n = 0
  · simp [hn]
  · rw [if_neg hn]
    exact natDigitsF_ne_nil (by omega) (by omega) []

theorem natReprL_digits (n : Nat) : ∀ c ∈ natReprL n, isDig c = true := by
  unfold natReprL
  by_cases hn : n = 0
  · simp [hn]; decide
  · rw [if_neg hn]
    exact natDigitsF_digits (n + 1) n [] (by simp)

theorem natReprL_readback (n : Nat) : valD (natReprL n) = n := by
  unfold natReprL
  by_cases hn : n = 0
  · simp [hn]; decide
  · rw [if_neg hn]
    exact natDigitsF_readback n (n + 1) (by omega) (by omega)

/-- Parsing back the decimal rendering of a natural number recovers it. -/
theorem pyIntL_natReprL (n : Nat) : pyIntL (natReprL n) = some (n : Int) := by
  rw [pyIntL_digits (natReprL_ne_nil n) (natReprL_digits n), natReprL_readback]

/-- Parsing back the decimal rendering of an integer recovers it
(`int(str(i)) == i`). -/
theorem pyIntL_intReprL (i : Int) : pyIntL (intReprL i) = some i := by
  unfold intReprL
  by_cases hi : i < 0
  · rw [if_pos hi]
    have hdig := natReprL_digits i.natAbs
    have hws : ∀ c ∈ '-' :: natReprL i.natAbs, isPyWs c = false := by
      intro c hc
      rcases List.mem_cons.mp hc with rfl | hc'
      · rfl
      · exact isDig_not_ws (hdig c hc')
    rw [pyIntL]
    simp only [stripWs_eq_self hws]
    rw [if_pos trivial, if_pos (digitsU_of_digits (natReprL_ne_nil _) hdig),
      stripU_eq_self hdig, natReprL_readback]
    have habs : ((i.natAbs : Nat) : Int) = -i := by omega
    rw [habs, neg_neg,
      if_neg (show ¬ ('-' : Char) = '+' by decide),
      if_pos (digitsU_of_digits (natReprL_ne_nil _) hdig)]
  · rw [if_neg hi, pyIntL_natReprL]
    have habs : ((i.toNat : Nat) : Int) = i := by omega
    rw [habs]

/-- Parsing back the zero-padded rendering of an integer recovers it. -/
theorem pyIntL_pad2L (d : Int) : pyIntL (pad2L d) = some d := by
  unfold pad2L
  by_cases hd : 0 ≤ d ∧ d < 10
  · rw [if_pos hd]
    have hrepr : intReprL d = natReprL d.toNat := by
      unfold intReprL
      rw [if_neg (by omega)]
    rw [hrepr]
    have hdig : ∀ c ∈ '0' :: natReprL d.toNat, isDig c = true := by
      intro c hc
      rcases List.mem_cons.mp hc with rfl | hc'
      · decide
      · exact natReprL_digits _ c hc'
    rw [pyIntL_digits (by simp) hdig]
    have hv : valD ('0' :: natReprL d.toNat) = valD (natReprL d.toNat) := by
      simp [valD, List.foldl_cons]
      rfl
    rw [hv, natReprL_readback]
    congr 1
    omega
  · rw [if_neg hd, pyIntL_intReprL]

theorem natReprL_small {n : Nat} (h : n < 10) : natReprL n = [digitChar n] := by
  unfold natReprL
  by_cases hn : n = 0
  · subst hn; rfl
  · rw [if_neg hn, natDigitsF_small (by omega) h (n + 1) [] (by omega)]

theorem natReprL_two {n : Nat} (h10 : 10 ≤ n) (h100 : n < 100) :
    natReprL n = [digitChar (n / 10), digitChar (n % 10)] := by
  unfold natReprL
  rw [if_neg (by omega), natDigitsF, if_neg (by omega),
    natDigitsF_small (by omega) (by omega) n [digitChar (n % 10)] (by omega)]

/-- `f"{d:02d}"` renders any day in `[0, 100)` with exactly two characters. -/
theorem pad2L_length {d : Int} (h0 : 0 ≤ d) (h100 : d < 100) : (pad2L d).length = 2 := by
  unfold pad2L
  by_cases hd : 0 ≤ d ∧ d < 10
  · rw [if_pos hd]
    unfold intReprL
    rw [if_neg (by omega), natReprL_small (by omega)]
    rfl
  · rw [if_neg hd]
    unfold intReprL
    rw [if_neg (by omega), natReprL_two (by omega) (by omega)]
    rfl

theorem intReprL_chars {i : Int} : ∀ c ∈ intReprL i, c = '-' ∨ isDig c = true := by
  intro c hc
  unfold intReprL at hc
  by_cases hi : i < 0
  · rw [if_pos hi] at hc
    rcases List.mem_cons.mp hc with rfl | hc'
    · exact Or.inl rfl
    · exact Or.inr (natReprL_digits _ c hc')
  · rw [if_neg hi] at hc
    exact Or.inr (natReprL_digits _ c hc)

/-! ## `splitChar`, `lastDot`, `pyStem` lemmas -/

theorem splitChar_ne_nil (sep : Char) : ∀ cs : List Char, splitChar sep cs ≠ [] := by
  intro cs
  cases cs with
  | nil => simp [splitChar]
  | cons c rest =>
    rw [splitChar]
    by_cases hc : c = sep
    · simp [hc]
    · simp [hc]

theorem splitChar_no_sep {sep : Char} :
    ∀ {cs : List Char}, sep ∉ cs → splitChar sep cs = [cs] := by
  intro cs
  induction cs with
  | nil => intro _; rfl
  | cons c rest ih =>
    intro h
    have hc : ¬ c = sep := fun he => h (he ▸ List.mem_cons_self c rest)
    have hrest : sep ∉ rest := fun hm => h (List.mem_cons_of_mem c hm)
    rw [splitChar, if_neg hc, ih hrest]
    rfl

theorem splitChar_append {sep : Char} :
    ∀ {xs : List Char}, sep ∉ xs → ∀ ys : List Char,
      splitChar sep (xs ++ sep :: ys) = xs :: splitChar sep ys := by
  intro xs
  induction xs with
  | nil =>
    intro _ ys
    rw [List.nil_append, splitChar, if_pos rfl]
  | cons x xs' ih =>
    intro h ys
    have hx : ¬ x = sep := fun he => h (he ▸ List.mem_cons_self x xs')
    have hxs : sep ∉ xs' := fun hm => h (List.mem_cons_of_mem x hm)
    rw [List.cons_append, splitChar, if_neg hx, ih hxs ys]
    rfl

theorem lastDot_none : ∀ {cs : List Char}, '.' ∉ cs → lastDot cs = none := by
  intro cs
  induction cs with
  | nil => intro _; rfl
  | cons c rest ih =>
    intro h
    have hc : ¬ c = '.' := fun he => h (he ▸ List.mem_cons_self c rest)
    have hrest : ('.' : Char) ∉ rest := fun hm => h (List.mem_cons_of_mem c hm)
    rw [lastDot, ih hrest, if_neg hc]

theorem lastDot_append : ∀ (xs : List Char) {ys : List Char}, '.' ∉ ys →
    lastDot (xs ++ '.' :: ys) = some xs.length := by
  intro xs
  induction xs with
  | nil =>
    intro ys h
    rw [List.nil_append, lastDot, lastDot_none h, if_pos rfl]
    rfl
  | cons x xs' ih =>
    intro ys h
    rw [List.cons_append, lastDot, ih h]
    rfl

/-- The stem of `<base>.<ext>` is `<base>` whenever base and extension are
nonempty and the extension has no further dot. -/
theorem pyStem_append {l1 l2 : List Char} (h1 : l1 ≠ []) (h2 : l2 ≠ [])
    (hdot : '.' ∉ l2) : pyStem (l1 ++ '.' :: l2) = l1 := by
  rw [pyStem, lastDot_append l1 hdot]
  show (if 0 < l1.length ∧ l1.length < (l1 ++ '.' :: l2).length - 1
        then List.take l1.length (l1 ++ '.' :: l2) else l1 ++ '.' :: l2) = l1
  have hlen : (l1 ++ '.' :: l2).length = l1.length + 1 + l2.length := by
    simp [List.length_append]
    omega
  have hp1 : 0 < l1.length := List.length_pos.mpr h1
  have hp2 : 0 < l2.length := List.length_pos.mpr h2
  rw [if_pos ⟨hp1, by omega⟩]
  exact List.take_left l1 ('.' :: l2)

/-! ## Token extraction on well-formed paths -/

theorem data_mk (cs : List Char) : (String.mk cs).data = cs := rfl

theorem parts_length_ok (pre : List String) (a b : String) :
    ¬ (pre ++ [a, b]).length < 2 := by
  simp

theorem yearToken_pre (pre : List String) (a b : String) :
    yearToken (pre ++ [a, b]) = a.data := by
  unfold yearToken
  have hl : (pre ++ [a, b]).length - 2 = pre.length := by simp
  rw [hl, List.getD_append_right pre [a, b] "" pre.length (Nat.le_refl _), Nat.sub_self]
  rfl

theorem stemOf_pre (pre : List String) (a b : String) :
    stemOf (pre ++ [a, b]) = pyStem b.data := by
  unfold stemOf
  have hsplit : pre ++ [a, b] = (pre ++ [a]) ++ [b] := by simp
  rw [hsplit, List.getLastD_concat]

theorem underscore_not_mem_dds {ds : List Char} (hd : ∀ c ∈ ds, isDig c = true) :
    ('_' : Char) ∉ 'd' :: ds := by
  intro hmem
  rcases List.mem_cons.mp hmem with h | h
  · exact absurd h.symm (by decide)
  · exact absurd rfl (isDig_ne_underscore (hd _ h))

theorem removeD_dds {ds : List Char} (hd : ∀ c ∈ ds, isDig c = true) :
    removeD ('d' :: ds) = ds := by
  unfold removeD
  rw [List.filter_cons_of_neg (by simp)]
  rw [List.filter_eq_self]
  intro c hc
  simpa using isDig_ne_d (hd c hc)

/-- `puzzle_info_core` on a `.../y<digits>/d<digits>.py` path. -/
theorem core_plain (pre : List String) (ys ds : List Char)
    (hy1 : ys ≠ []) (hy2 : ∀ c ∈ ys, isDig c = true)
    (hd1 : ds ≠ []) (hd2 : ∀ c ∈ ds, isDig c = true) :
    puzzle_info_core
        (pre ++ [String.mk ('y' :: ys), String.mk ('d' :: (ds ++ ['.', 'p', 'y']))])
      = .ok (((valD ys : Nat) : Int), ((valD ds : Nat) : Int), none) := by
  set parts := pre ++ [String.mk ('y' :: ys), String.mk ('d' :: (ds ++ ['.', 'p', 'y']))]
    with hparts
  have hname : ('d' :: (ds ++ ['.', 'p', 'y'])) = ('d' :: ds) ++ '.' :: ['p', 'y'] := by
    simp
  have hstem : stemOf parts = 'd' :: ds := by
    rw [hparts, stemOf_pre, data_mk, hname,
      pyStem_append (by simp) (by simp) (by decide)]
  have e1 : yearParse (yearToken parts) = some ((valD ys : Nat) : Int) := by
    rw [hparts, yearToken_pre, data_mk, yearParse,
      if_pos (show startsWithY ('y' :: ys) = true from rfl), List.tail_cons,
      pyIntL_digits hy1 hy2]
  have e2 : pyIntL (removeD (dayToken parts)) = some ((valD ds : Nat) : Int) := by
    rw [dayToken, hstem, splitChar_no_sep (underscore_not_mem_dds hd2), List.headD_cons,
      removeD_dds hd2, pyIntL_digits hd1 hd2]
  have e3 : ¬ ('_' : Char) ∈ stemOf parts := by
    rw [hstem]; exact underscore_not_mem_dds hd2
  rw [puzzle_info_core, if_neg (by rw [hparts]; exact parts_length_ok _ _ _)]
  simp only [e1, e2, if_neg e3]

/-- `puzzle_info_core` on a `.../y<digits>/d<digits>_<digits>.py` path. -/
theorem core_with_part (pre : List String) (ys ds ps : List Char)
    (hy1 : ys ≠ []) (hy2 : ∀ c ∈ ys, isDig c = true)
    (hd1 : ds ≠ []) (hd2 : ∀ c ∈ ds, isDig c = true)
    (hp1 : ps ≠ []) (hp2 : ∀ c ∈ ps, isDig c = true) :
    puzzle_info_core
        (pre ++ [String.mk ('y' :: ys), String.mk ('d' :: (ds ++ '_' :: ps ++ ['.', 'p', 'y']))])
      = .ok (((valD ys : Nat) : Int), ((valD ds : Nat) : Int), some ((valD ps : Nat) : Int)) := by
  set parts :=
    pre ++ [String.mk ('y' :: ys), String.mk ('d' :: (ds ++ '_' :: ps ++ ['.', 'p', 'y']))]
    with hparts
  have hname : ('d' :: (ds ++ '_' :: ps ++ ['.', 'p', 'y']))
      = (('d' :: ds) ++ '_' :: ps) ++ '.' :: ['p', 'y'] := by
    simp
  have hstem : stemOf parts = ('d' :: ds) ++ '_' :: ps := by
    rw [hparts, stemOf_pre, data_mk, hname,
      pyStem_append (by simp) (by simp) (by decide)]
  have hsplit : splitChar '_' (stemOf parts) = ('d' :: ds) :: [ps] := by
    rw [hstem, splitChar_append (underscore_not_mem_dds hd2) ps,
      splitChar_no_sep (fun hm => absurd rfl (isDig_ne_underscore (hp2 _ hm)))]
  have e1 : yearParse (yearToken parts) = some ((valD ys : Nat) : Int) := by
    rw [hparts, yearToken_pre, data_mk, yearParse,
      if_pos (show startsWithY ('y' :: ys) = true from rfl), List.tail_cons,
      pyIntL_digits hy1 hy2]
  have e2 : pyIntL (removeD (dayToken parts)) = some ((valD ds : Nat) : Int) := by
    rw [dayToken, hsplit, List.headD_cons, removeD_dds hd2, pyIntL_digits hd1 hd2]
  have e3 : ('_' : Char) ∈ stemOf parts := by
    rw [hstem]
    exact List.mem_append_right _ (List.mem_cons_self _ _)
  have e4 : pyIntL (partTokenOf parts) = some ((valD ps : Nat) : Int) := by
    rw [partTokenOf, hsplit]
    exact pyIntL_digits hp1 hp2
  rw [puzzle_info_core, if_neg (by rw [hparts]; exact parts_length_ok _ _ _)]
  simp only [e1, e2, if_pos e3, e4]

/-! ## Inversion lemmas for `puzzle_info` -/

/-- Inversion: a successful parse pins down how each token parsed. -/
theorem core_ok_inv {parts : List String} {y d : Int} {p : Option Int}
    (h : puzzle_info_core parts = .ok (y, d, p)) :
    ¬ parts.length < 2
    ∧ yearParse (yearToken parts) = some y
    ∧ pyIntL (removeD (dayToken parts)) = some d
    ∧ ((p = none ∧ '_' ∉ stemOf parts)
       ∨ ∃ pv, p = some pv ∧ '_' ∈ stemOf parts ∧ pyIntL (partTokenOf parts) = some pv) := by
  by_cases hl : parts.length < 2
  · rw [puzzle_info_core, if_pos hl] at h
    simp at h
  · rw [puzzle_info_core, if_neg hl] at h
    rcases hy : yearParse (yearToken parts) with _ | yv
    · simp only [hy] at h
      exact absurd h (by simp)
    · simp only [hy] at h
      rcases hd : pyIntL (removeD (dayToken parts)) with _ | dv
      · simp only [hd] at h
        exact absurd h (by simp)
      · simp only [hd] at h
        by_cases hu : '_' ∈ stemOf parts
        · rw [if_pos hu] at h
          rcases hp : pyIntL (partTokenOf parts) with _ | pv
          · simp only [hp] at h
            exact absurd h (by simp)
          · simp only [hp] at h
            injection h with h'
            simp only [Prod.mk.injEq] at h'
            obtain ⟨rfl, rfl, hpv⟩ := h'
            exact ⟨hl, rfl, rfl, Or.inr ⟨pv, hpv.symm, hu, rfl⟩⟩
        · rw [if_neg hu] at h
          injection h with h'
          simp only [Prod.mk.injEq] at h'
          obtain ⟨rfl, rfl, hnone⟩ := h'
          exact ⟨hl, rfl, rfl, Or.inl ⟨hnone.symm, hu⟩⟩

/-- `puzzle_info_core` fails exactly when the path is too short, the year or
day token fails to parse, or a present part token fails to parse. -/
theorem core_err_iff (parts : List String) :
    (∃ e, puzzle_info_core parts = .error e)
      ↔ (parts.length < 2
         ∨ yearParse (yearToken parts) = none
         ∨ pyIntL (removeD (dayToken parts)) = none
         ∨ ('_' ∈ stemOf parts ∧ pyIntL (partTokenOf parts) = none)) := by
  by_cases hl : parts.length < 2
  · simp [puzzle_info_core, hl]
  · rcases hy : yearParse (yearToken parts) with _ | yv
    · simp [puzzle_info_core, hl, hy]
    · rcases hd : pyIntL (removeD (dayToken parts)) with _ | dv
      · simp [puzzle_info_core, hl, hy, hd]
      · by_cases hu : '_' ∈ stemOf parts
        · rcases hp : pyIntL (partTokenOf parts) with _ | pv
          · simp [puzzle_info_core, hl, hy, hd, hu, hp]
          · simp [puzzle_info_core, hl, hy, hd, hu, hp]
        · simp [puzzle_info_core, hl, hy, hd, hu]

/-- Inversion from `puzzle_info` to `puzzle_info_core`. -/
theorem info_ok_inv {parts : List String} {pad : Bool} {info : PuzzleInfo}
    (h : puzzle_info parts pad = .ok info) :
    ∃ y d p, puzzle_info_core parts = .ok (y, d, p)
      ∧ info = ⟨y, if pad then Sum.inr (String.mk (pad2L d)) else Sum.inl d, p⟩ := by
  cases hcore : puzzle_info_core parts with
  | error e =>
    rw [puzzle_info, hcore] at h
    simp at h
  | ok v =>
    obtain ⟨y, d, p⟩ := v
    refine ⟨y, d, p, rfl, ?_⟩
    rw [puzzle_info, hcore] at h
    injection h with h'
    exact h'.symm

/-- `puzzle_info` errors exactly when `puzzle_info_core` does. -/
theorem info_err_iff_core (parts : List String) (pad : Bool) :
    (∃ e, puzzle_info parts pad = .error e) ↔ (∃ e, puzzle_info_core parts = .error e) := by
  cases hcore : puzzle_info_core parts with
  | error e => simp [puzzle_info, hcore]
  | ok v => obtain ⟨y, d, p⟩ := v; simp [puzzle_info, hcore]

/-! ## Claim C1 -/

/-- C1: for a path whose second-to-last segment is `y<YYYY>` (digits `YYYY`)
and whose stem is `d<DD>` with no underscore, `puzzle_info` returns the year
`YYYY` as an integer, the day `DD` as an integer when `pad_day` is false and
as the two-digit zero-padded string when `pad_day` is true, and no part; with
stem `d<DD>_<P>` it additionally returns the part `P` as an integer. -/
theorem C1_layout_parsing (pre : List String) (ys ds : List Char) (pd : Bool)
    (hy1 : ys ≠ []) (hy2 : ∀ c ∈ ys, isDig c = true)
    (hd1 : ds ≠ []) (hd2 : ∀ c ∈ ds, isDig c = true) :
    puzzle_info (pre ++ [String.mk ('y' :: ys), String.mk ('d' :: (ds ++ ['.', 'p', 'y']))]) pd
      = .ok ⟨((valD ys : Nat) : Int),
             if pd then Sum.inr (String.mk (pad2L ((valD ds : Nat) : Int)))
             else Sum.inl ((valD ds : Nat) : Int), none⟩
    ∧ (((valD ds : Nat) : Int) < 100 → (pad2L ((valD ds : Nat) : Int)).length = 2)
    ∧ ∀ ps : List Char, ps ≠ [] → (∀ c ∈ ps, isDig c = true) →
        puzzle_info
            (pre ++ [String.mk ('y' :: ys), String.mk ('d' :: (ds ++ '_' :: ps ++ ['.', 'p', 'y']))]) pd
          = .ok ⟨((valD ys : Nat) : Int),
                 if pd then Sum.inr (String.mk (pad2L ((valD ds : Nat) : Int)))
                 else Sum.inl ((valD ds : Nat) : Int), some ((valD ps : Nat) : Int)⟩ := by
  refine ⟨?_, ?_, ?_⟩
  · rw [puzzle_info, core_plain pre ys ds hy1 hy2 hd1 hd2]
  · intro h100
    exact pad2L_length (Int.natCast_nonneg _) h100
  · intro ps hp1 hp2
    rw [puzzle_info, core_with_part pre ys ds ps hy1 hy2 hd1 hd2 hp1 hp2]

/-- Witness for C1 at the concrete path `y2024/d05_2.py`. -/
theorem C1_layout_parsing_witness :
    puzzle_info ["y2024", "d05_2.py"] false = .ok ⟨2024, Sum.inl 5, some 2⟩ := by
  have h := (C1_layout_parsing [] ['2', '0', '2', '4'] ['0', '5'] false
      (by decide) (by decide) (by decide) (by decide)).2.2 ['2'] (by decide) (by decide)
  exact h

/-! ## Claim C5 -/

/-- C5 counterexample: on `y2024/d01_extra.py` both the year token and the
day token are numeric after prefix stripping, yet `puzzle_info` raises (from
the part token), so the claimed "if and only if" fails. -/
theorem C5_counterexample :
    (∃ e, puzzle_info ["y2024", "d01_extra.py"] false = .error e)
    ∧ yearParse (yearToken ["y2024", "d01_extra.py"]) = some 2024
    ∧ pyIntL (removeD (dayToken ["y2024", "d01_extra.py"])) = some 1 :=
  ⟨⟨"ValueError: invalid part", rfl⟩, rfl, rfl⟩

/-- C5 amended: `puzzle_info` raises if and only if the path has fewer than
two segments, or the year token is not numeric after prefix stripping, or the
day token is not numeric after `'d'`-removal, or the stem contains an
underscore whose following segment is not numeric. In particular a token such
as `y20a4` still causes a parse failure. -/
theorem C5_amended_error_iff (parts : List String) (pad : Bool) :
    (∃ e, puzzle_info parts pad = .error e)
      ↔ (parts.length < 2
         ∨ yearParse (yearToken parts) = none
         ∨ pyIntL (removeD (dayToken parts)) = none
         ∨ ('_' ∈ stemOf parts ∧ pyIntL (partTokenOf parts) = none)) :=
  (info_err_iff_core parts pad).trans (core_err_iff parts)

/-! ## Claim C6 -/

/-- C6 counterexample: the claim says a parent directory `a2024` yields year
2024 just as `y2024` does, but the source strips a leading character only for
the prefix `"y"`, so `int("a2024")` raises instead. -/
theorem C6_counterexample :
    puzzle_info ["a2024", "d01.py"] false = .error "ValueError: invalid year" := rfl

/-- C6 amended: the year token is the second-to-last path segment; exactly one
leading character is stripped when (and only when) the token starts with the
letter `y`, and otherwise the whole token is parsed as the integer year, so a
non-`y` letter prefix such as `a2024` raises rather than parsing as 2024. -/
theorem C6_amended_year_token (parts : List String) (pad : Bool) (info : PuzzleInfo)
    (h : puzzle_info parts pad = .ok info) :
    (startsWithY (yearToken parts) = true → pyIntL (yearToken parts).tail = some info.year)
    ∧ (startsWithY (yearToken parts) = false → pyIntL (yearToken parts) = some info.year) := by
  obtain ⟨y, d, p, hc, he⟩ := info_ok_inv h
  obtain ⟨-, hy, -, -⟩ := core_ok_inv hc
  subst he
  constructor
  · intro hsw
    rw [yearParse, if_pos hsw] at hy
    simpa using hy
  · intro hsw
    rw [yearParse, if_neg (by simp [hsw])] at hy
    simpa using hy

/-- Witness for C6 amended at `y2024/d01.py`. -/
theorem C6_amended_year_token_witness :
    pyIntL (yearToken ["y2024", "d01.py"]).tail = some 2024 :=
  (C6_amended_year_token ["y2024", "d01.py"] false ⟨2024, Sum.inl 1, none⟩ rfl).1 rfl

/-! ## Claim C7 -/

/-- C7 counterexample: the claim says the day prefix is parsed after removing
its non-digit leading characters, so that `day05.py` yields day 5; the source
instead removes every `'d'` character, leaving `"ay05"`, which raises. -/
theorem C7_counterexample :
    puzzle_info ["y2024", "day05.py"] false = .error "ValueError: invalid day" := rfl

/-- C7 amended: the day is the integer parsed from the stem's prefix before
the first underscore with every occurrence of the character `'d'` removed
(so `d<DD>` parses to `DD`, but `day<DD>` leaves `ay<DD>` and raises). -/
theorem C7_amended_day_replace (parts : List String) (pad : Bool) (info : PuzzleInfo)
    (h : puzzle_info parts pad = .ok info) :
    ∃ d : Int, pyIntL (removeD (dayToken parts)) = some d
      ∧ info.day = (if pad then Sum.inr (String.mk (pad2L d)) else Sum.inl d) := by
  obtain ⟨y, d, p, hc, he⟩ := info_ok_inv h
  obtain ⟨-, -, hd, -⟩ := core_ok_inv hc
  exact ⟨d, hd, by rw [he]⟩

/-- Witness for C7 amended at `y2024/d01.py`. -/
theorem C7_amended_day_replace_witness :
    ∃ d : Int, pyIntL (removeD (dayToken ["y2024", "d01.py"])) = some d
      ∧ (PuzzleInfo.mk 2024 (Sum.inl 1) none).day
          = (if false then Sum.inr (String.mk (pad2L d)) else Sum.inl d) :=
  C7_amended_day_replace ["y2024", "d01.py"] false ⟨2024, Sum.inl 1, none⟩ rfl

/-! ## Claim C8 -/

/-- C8: on any path where both calls succeed, converting the padded day
string back to an integer gives the unpadded day, while year and part agree
between the two calls. -/
theorem C8_pad_roundtrip (parts : List String) (y y' d : Int) (p p' : Option Int) (s : String)
    (h1 : puzzle_info parts false = .ok ⟨y, Sum.inl d, p⟩)
    (h2 : puzzle_info parts true = .ok ⟨y', Sum.inr s, p'⟩) :
    pyIntL s.data = some d ∧ y' = y ∧ p' = p := by
  obtain ⟨y1, d1, p1, hc1, he1⟩ := info_ok_inv h1
  obtain ⟨y2, d2, p2, hc2, he2⟩ := info_ok_inv h2
  rw [hc1] at hc2
  injection hc2 with hv
  simp only [Prod.mk.injEq] at hv
  obtain ⟨rfl, rfl, rfl⟩ := hv
  simp at he1 he2
  obtain ⟨rfl, rfl, rfl⟩ := he1
  obtain ⟨rfl, hs, rfl⟩ := he2
  subst hs
  exact ⟨pyIntL_pad2L _, rfl, rfl⟩

/-- Witness for C8 at `y2024/d05_2.py`. -/
theorem C8_pad_roundtrip_witness :
    pyIntL "05".data = some 5 ∧ (2024 : Int) = 2024 ∧ (some 2 : Option Int) = some 2 :=
  C8_pad_roundtrip ["y2024", "d05_2.py"] 2024 2024 5 (some 2) (some 2) "05" rfl rfl

/-! ## Claim C9 -/

/-- C9: the caller-context wrapper passes the immediate caller's source-file
path (the head of the frames above the wrapper) as the first argument to the
wrapped function, forwarding the remaining arguments unchanged, and fails
when no caller frame is available. -/
theorem C9_caller_context {α β : Type} (func : String → α → β)
    (stack : List String) (a : α) :
    (∀ caller rest, stack = caller :: rest →
        with_calling_file_context func stack a = .ok (func caller a))
    ∧ (stack = [] → ∃ e, with_calling_file_context func stack a = .error e) := by
  constructor
  · intro caller rest hstack
    subst hstack
    rfl
  · intro hstack
    subst hstack
    exact ⟨_, rfl⟩

/-- Witness for C9 with a two-frame stack. -/
theorem C9_caller_context_witness :
    with_calling_file_context (fun f (n : Nat) => f.length + n) ["solver.py", "runner.py"] 5
      = .ok 14 := by
  have h := (C9_caller_context (fun f (n : Nat) => f.length + n)
      ["solver.py", "runner.py"] 5).1 "solver.py" ["runner.py"] rfl
  rw [h]
  exact congrArg Except.ok (by decide)

/-! ## Claim C10 -/

/-- C10: when the stem contains an underscore, the segment between the first
and second underscore is parsed as the part: if it is not numeric,
`puzzle_info` raises even though year and day parsed, and if it is numeric
its value is returned as the part. -/
theorem C10_part_token (parts : List String) (pad : Bool) (y d : Int)
    (hlen : ¬ parts.length < 2)
    (hy : yearParse (yearToken parts) = some y)
    (hd : pyIntL (removeD (dayToken parts)) = some d)
    (hu : '_' ∈ stemOf parts) :
    (pyIntL (partTokenOf parts) = none →
        puzzle_info parts pad = .error "ValueError: invalid part")
    ∧ ∀ pv : Int, pyIntL (partTokenOf parts) = some pv →
        puzzle_info parts pad
          = .ok ⟨y, if pad then Sum.inr (String.mk (pad2L d)) else Sum.inl d, some pv⟩ := by
  constructor
  · intro hp
    rw [puzzle_info, puzzle_info_core, if_neg hlen]
    simp only [hy, hd, if_pos hu, hp]
  · intro pv hp
    rw [puzzle_info, puzzle_info_core, if_neg hlen]
    simp only [hy, hd, if_pos hu, hp]

/-- Witness for C10 at `y2024/d01_2_9.py`: the part is the token between the
first and second underscore (2), not anything after the second underscore. -/
theorem C10_part_token_witness :
    puzzle_info ["y2024", "d01_2_9.py"] false = .ok ⟨2024, Sum.inl 1, some 2⟩ := by
  have h := (C10_part_token ["y2024", "d01_2_9.py"] false 2024 1
      (by decide) rfl rfl (by decide)).2 2 rfl
  exact h

/-! ## Path-join lemmas -/

theorem pad2L_chars (d : Int) : ∀ c ∈ pad2L d, c = '-' ∨ isDig c = true := by
  intro c hc
  unfold pad2L at hc
  by_cases hd : 0 ≤ d ∧ d < 10
  · rw [if_pos hd] at hc
    rcases List.mem_cons.mp hc with rfl | hc'
    · exact Or.inr (by decide)
    · exact intReprL_chars c hc'
  · rw [if_neg hd] at hc
    exact intReprL_chars c hc

theorem intReprL_no_slash (i : Int) : ('/' : Char) ∉ intReprL i := by
  intro hm
  rcases intReprL_chars '/' hm with h | h
  · exact absurd h (by decide)
  · exact absurd rfl (isDig_ne_slash h)

theorem pad2L_no_slash (d : Int) : ('/' : Char) ∉ pad2L d := by
  intro hm
  rcases pad2L_chars d '/' hm with h | h
  · exact absurd h (by decide)
  · exact absurd rfl (isDig_ne_slash h)

theorem intReprL_ne_nil (i : Int) : intReprL i ≠ [] := by
  unfold intReprL
  by_cases hi : i < 0
  · rw [if_pos hi]; simp
  · rw [if_neg hi]; exact natReprL_ne_nil _

theorem intReprL_ne_dot (i : Int) : intReprL i ≠ ['.'] := by
  intro h
  have hm : ('.' : Char) ∈ intReprL i := h ▸ List.mem_cons_self '.' []
  rcases intReprL_chars '.' hm with h2 | h2
  · exact absurd h2 (by decide)
  · exact absurd rfl (isDig_ne_dot h2)

theorem relSegs_single {cs : List Char} (h1 : cs ≠ []) (h2 : '/' ∉ cs)
    (h3 : cs ≠ ['.']) : relSegs cs = [String.mk cs] := by
  rw [relSegs, splitChar_no_sep h2, List.filter_cons_of_pos (by simp [h1, h3])]
  rfl

theorem pyJoin_single (base : List String) {cs : List Char} (h1 : cs ≠ [])
    (h2 : '/' ∉ cs) (h3 : cs ≠ ['.']) :
    pyJoin base cs = base ++ [String.mk cs] := by
  have hh : cs.head? ≠ some '/' := by
    cases cs with
    | nil => exact absurd rfl h1
    | cons c rest =>
      simp only [List.head?_cons, ne_eq, Option.some.injEq]
      intro he
      exact h2 (he ▸ List.mem_cons_self c rest)
  rw [pyJoin, if_neg hh, relSegs_single h1 h2 h3]

theorem pyJoin_rel (base : List String) {cs : List Char} (h : cs.head? ≠ some '/') :
    pyJoin base cs = base ++ relSegs cs := by
  rw [pyJoin, if_neg h]

/-- Shape facts about the data-file name `"<ftype><paddedday><tail>"`. -/
theorem fname_facts (test : Bool) (d : Int) (tail : List Char) (htail : '/' ∉ tail) :
    ((if test then "test".data else "input".data) ++ pad2L d ++ tail) ≠ []
    ∧ '/' ∉ ((if test then "test".data else "input".data) ++ pad2L d ++ tail)
    ∧ ((if test then "test".data else "input".data) ++ pad2L d ++ tail) ≠ ['.'] := by
  cases test <;>
  · refine ⟨by simp, ?_, by simp⟩
    intro hm
    simp only [List.append_assoc, List.mem_append, List.mem_cons] at hm
    rcases hm with h | h | h
    · revert h; decide
    · exact pad2L_no_slash d h
    · exact htail h

/-- Evaluation of `read_input_path` when the parse succeeds without a part. -/
theorem read_input_path_ok_none {parts : List String} {y d : Int}
    (test : Bool) (data_dir : String)
    (hcore : puzzle_info_core parts = .ok (y, d, none)) :
    read_input_path parts test data_dir
      = .ok (pyJoin (pyJoin (pyJoin parts.dropLast data_dir.data) (intReprL y))
          ((if test then "test".data else "input".data) ++ pad2L d ++ ['.', 't', 'x', 't'])) := by
  rw [read_input_path, puzzle_info, hcore]
  rfl

/-- Evaluation of `read_input_path` when the parse succeeds with a part. -/
theorem read_input_path_ok_some {parts : List String} {y d pv : Int}
    (test : Bool) (data_dir : String)
    (hcore : puzzle_info_core parts = .ok (y, d, some pv)) :
    read_input_path parts test data_dir
      = .ok (pyJoin (pyJoin (pyJoin parts.dropLast data_dir.data) (intReprL y))
          ((if test then "test".data else "input".data) ++ pad2L d
            ++ '_' :: intReprL pv ++ ['.', 't', 'x', 't'])) := by
  rw [read_input_path, puzzle_info, hcore]
  rfl

theorem no_slash_append {l1 l2 : List Char} (h1 : '/' ∉ l1) (h2 : '/' ∉ l2) :
    ('/' : Char) ∉ l1 ++ l2 :=
  fun hm => (List.mem_append.mp hm).elim (fun h => h1 h) (fun h => h2 h)

/-- Shape facts about the data-file name when a part is present. -/
theorem fname_facts_some (test : Bool) (d pv : Int) :
    ((if test then "test".data else "input".data) ++ pad2L d
        ++ '_' :: intReprL pv ++ ['.', 't', 'x', 't']) ≠ []
    ∧ '/' ∉ ((if test then "test".data else "input".data) ++ pad2L d
        ++ '_' :: intReprL pv ++ ['.', 't', 'x', 't'])
    ∧ ((if test then "test".data else "input".data) ++ pad2L d
        ++ '_' :: intReprL pv ++ ['.', 't', 'x', 't']) ≠ ['.'] := by
  have hcons : ('/' : Char) ∉ '_' :: intReprL pv := by
    intro hm
    rcases List.mem_cons.mp hm with h | h
    · exact absurd h (by decide)
    · exact intReprL_no_slash pv h
  cases test <;>
  · refine ⟨by simp, ?_, ?_⟩
    · exact no_slash_append (no_slash_append (no_slash_append (by decide)
        (pad2L_no_slash d)) hcons) (by decide)
    · intro he
      have hl := congrArg List.length he
      simp [List.length_append] at hl

/-! ## Claim C2 -/

/-- C2: on any path whose layout parses, `read_input` targets
`<caller_dir>/<data_dir>/<year>/<ftype><day>.txt` when the part is absent and
`<caller_dir>/<data_dir>/<year>/<ftype><day>_<part>.txt` when it is present,
where the day is the zero-padded rendering (two digits for days below 100),
the file-type piece is `"test"` exactly when the test flag is set and
`"input"` otherwise, and the default `data_dir` contributes the segments
`../../data` after the caller's directory. -/
theorem C2_target_path (parts : List String) (test : Bool) (data_dir : String)
    (y d : Int) (p : Option Int)
    (hcore : puzzle_info_core parts = .ok (y, d, p))
    (hrel : data_dir.data.head? ≠ some '/') :
    (p = none →
      read_input_path parts test data_dir
        = .ok (parts.dropLast ++ relSegs data_dir.data
            ++ [String.mk (intReprL y),
                String.mk ((if test then "test".data else "input".data)
                  ++ pad2L d ++ ['.', 't', 'x', 't'])]))
    ∧ (∀ pv : Int, p = some pv →
      read_input_path parts test data_dir
        = .ok (parts.dropLast ++ relSegs data_dir.data
            ++ [String.mk (intReprL y),
                String.mk ((if test then "test".data else "input".data)
                  ++ pad2L d ++ ('_' :: intReprL pv ++ ['.', 't', 'x', 't']))]))
    ∧ relSegs ("../../data".data) = ["..", "..", "data"]
    ∧ (0 ≤ d → d < 100 → (pad2L d).length = 2) := by
  have hj1 : pyJoin parts.dropLast data_dir.data
      = parts.dropLast ++ relSegs data_dir.data := pyJoin_rel _ hrel
  have hj2 : ∀ base : List String, pyJoin base (intReprL y) = base ++ [String.mk (intReprL y)] :=
    fun base => pyJoin_single base (intReprL_ne_nil y) (intReprL_no_slash y) (intReprL_ne_dot y)
  refine ⟨?_, ?_, rfl, fun h0 h100 => pad2L_length h0 h100⟩
  · intro hp
    subst hp
    obtain ⟨hf1, hf2, hf3⟩ := fname_facts test d ['.', 't', 'x', 't'] (by decide)
    rw [read_input_path_ok_none test data_dir hcore, hj1, hj2, pyJoin_single _ hf1 hf2 hf3]
    simp [List.append_assoc]
  · intro pv hp
    subst hp
    obtain ⟨hf1, hf2, hf3⟩ := fname_facts_some test d pv
    rw [read_input_path_ok_some test data_dir hcore, hj1, hj2, pyJoin_single _ hf1 hf2 hf3]
    simp [List.append_assoc]

/-- Witness for C2 at `root/y2024/d01.py` with the default data directory and
the test flag set (targeting `test01.txt`). -/
theorem C2_target_path_witness :
    read_input_path ["root", "y2024", "d01.py"] true "../../data"
      = .ok ["root", "y2024", "..", "..", "data", "2024", "test01.txt"] := by
  have h := (C2_target_path ["root", "y2024", "d01.py"] true "../../data"
      2024 1 none rfl (by decide)).1 rfl
  exact h

/-! ## Line-splitting lemmas -/

theorem readlinesL_ne_nil {cs : List Char} (h : cs ≠ []) : readlinesL cs ≠ [] := by
  cases cs with
  | nil => exact absurd rfl h
  | cons c rest =>
    rw [readlinesL]
    by_cases hc : c = '\n'
    · simp [hc]
    · rw [if_neg hc]
      cases hr : readlinesL rest <;> simp

theorem rstripNlL_cons {c : Char} (hc : ¬ c = '\n') (l : List Char) :
    rstripNlL (c :: l) = c :: rstripNlL l := by
  unfold rstripNlL
  rw [List.reverse_cons, List.dropWhile_append]
  by_cases he : (l.reverse.dropWhile (fun x => decide (x = '\n'))).isEmpty
  · rw [if_pos he]
    have he' : l.reverse.dropWhile (fun x => decide (x = '\n')) = [] := by
      simpa [List.isEmpty_iff] using he
    rw [he']
    simp [List.dropWhile, hc]
  · rw [if_neg he]
    simp

/-- `readlines` followed by per-line `rstrip("\n")` is exactly the split of
the text at newlines with the trailing empty piece dropped. -/
theorem map_rstrip_readlines : ∀ cs : List Char,
    (readlinesL cs).map rstripNlL = dropLastEmpty (splitChar '\n' cs) := by
  intro cs
  induction cs with
  | nil => rfl
  | cons c rest ih =>
    by_cases hc : c = '\n'
    · subst hc
      rw [readlinesL, if_pos rfl, splitChar, if_pos rfl, List.map_cons]
      rw [show rstripNlL ['\n'] = [] from rfl]
      rcases hs : splitChar '\n' rest with _ | ⟨g, gs⟩
      · exact absurd hs (splitChar_ne_nil _ _)
      · rw [hs] at ih
        rw [show dropLastEmpty ([] :: g :: gs) = [] :: dropLastEmpty (g :: gs) from rfl, ih]
    · rcases rest with _ | ⟨c2, rest2⟩
      · simp [readlinesL, splitChar, dropLastEmpty, hc, rstripNlL_cons hc, rstripNlL]
      · rcases hr : readlinesL (c2 :: rest2) with _ | ⟨l, ls⟩
        · exact absurd hr (readlinesL_ne_nil (by simp))
        rcases hs : splitChar '\n' (c2 :: rest2) with _ | ⟨g, gs⟩
        · exact absurd hs (splitChar_ne_nil _ _)
        rw [hr, hs] at ih
        rw [readlinesL, if_neg hc, hr, splitChar, if_neg hc, hs]
        simp only [List.headD_cons, List.tail_cons, List.map_cons, rstripNlL_cons hc]
        rw [List.map_cons] at ih
        rcases gs with _ | ⟨g2, gs2⟩
        · by_cases hg : g = []
          · subst hg
            rw [show dropLastEmpty [([] : List Char)] = [] from rfl] at ih
            exact absurd ih (by simp)
          · rw [show dropLastEmpty [g] = if g = [] then [] else [g] from rfl, if_neg hg] at ih
            injection ih with i1 i2
            rw [i1, i2,
              show dropLastEmpty [c :: g] = if c :: g = [] then [] else [c :: g] from rfl,
              if_neg (by simp)]
        · rw [show dropLastEmpty (g :: g2 :: gs2) = g :: dropLastEmpty (g2 :: gs2) from rfl] at ih
          injection ih with i1 i2
          rw [i1, i2,
            show dropLastEmpty ((c :: g) :: g2 :: gs2)
              = (c :: g) :: dropLastEmpty (g2 :: gs2) from rfl]

/-- `readlines` output concatenates back to the file text. -/
theorem flatten_readlines : ∀ cs : List Char, (readlinesL cs).flatten = cs := by
  intro cs
  induction cs with
  | nil => rfl
  | cons c rest ih =>
    by_cases hc : c = '\n'
    · subst hc
      rw [readlinesL, if_pos rfl, List.flatten_cons, ih]
      rfl
    · rcases hr : readlinesL rest with _ | ⟨l, ls⟩
      · rw [hr] at ih
        simp only [List.flatten_nil] at ih
        rw [readlinesL, if_neg hc, hr, ← ih]
        rfl
      · rw [readlinesL, if_neg hc, hr]
        rw [hr] at ih
        simp only [List.flatten_cons] at ih ⊢
        rw [List.cons_append, ih]

/-! ## Claim C3 -/

/-- C3: for an existing input file, LINES mode returns the file's lines in
order — with each trailing newline removed when `strip` is true (the result is
the newline-split of the text with the trailing empty piece dropped), and
kept otherwise (the returned lines concatenate back to the file text) — while
TEXT mode returns the whole text, trimmed of leading and trailing whitespace
exactly when `strip` is true. -/
theorem C3_read_modes (parts : List String) (fs : List String → Option String)
    (test : Bool) (data_dir : String) (path : List String) (content : String)
    (hp : read_input_path parts test data_dir = .ok path)
    (hf : fs path = some content) :
    read_input parts fs test true data_dir InputMode.LINES
      = .ok (Sum.inr ((dropLastEmpty (splitChar '\n' content.data)).map String.mk))
    ∧ (∀ ls : List String, read_input parts fs test false data_dir InputMode.LINES
          = .ok (Sum.inr ls) → (ls.map String.data).flatten = content.data)
    ∧ read_input parts fs test true data_dir InputMode.TEXT
      = .ok (Sum.inl (String.mk (stripWs content.data)))
    ∧ read_input parts fs test false data_dir InputMode.TEXT = .ok (Sum.inl content) := by
  refine ⟨?_, ?_, ?_, ?_⟩
  · rw [read_input]
    simp only [hp, hf]
    show Except.ok (Sum.inr (((readlinesL content.data).map String.mk).map
        (fun l => String.mk (rstripNlL l.data)))) = _
    rw [List.map_map,
      show ((fun l => String.mk (rstripNlL l.data)) ∘ String.mk)
        = (String.mk ∘ rstripNlL) from rfl,
      ← List.map_map, map_rstrip_readlines]
  · intro ls hres
    rw [read_input] at hres
    simp only [hp, hf] at hres
    have hls : ls = (readlinesL content.data).map String.mk := by
      have hres' : (Except.ok (Sum.inr ((readlinesL content.data).map String.mk)) :
          Except String (String ⊕ List String)) = .ok (Sum.inr ls) := hres
      injection hres' with h1
      injection h1 with h2
      exact h2.symm
    subst hls
    rw [List.map_map,
      show (String.data ∘ String.mk) = (id : List Char → List Char) from rfl,
      List.map_id, flatten_readlines]
  · rw [read_input]
    simp only [hp, hf]
    rfl
  · rw [read_input]
    simp only [hp, hf]
    rfl

/-- Witness for C3 on a file containing `"abc\ndef\n"`: LINES mode with
`strip` yields `["abc", "def"]`. -/
theorem C3_read_modes_witness :
    read_input ["root", "y2024", "d01.py"]
      (fun p => if p = ["root", "y2024", "..", "..", "data", "2024", "input01.txt"]
                then some "abc\ndef\n" else none)
      false true "../../data" InputMode.LINES = .ok (Sum.inr ["abc", "def"]) := by
  have h := (C3_read_modes ["root", "y2024", "d01.py"]
      (fun p => if p = ["root", "y2024", "..", "..", "data", "2024", "input01.txt"]
                then some "abc\ndef\n" else none)
      false "../../data" ["root", "y2024", "..", "..", "data", "2024", "input01.txt"]
      "abc\ndef\n" rfl rfl).1
  rw [h]
  rfl

/-! ## Claim C4 -/

/-- C4: when the computed data-file path names no existing file, `read_input`
propagates the file-not-found failure directly and returns no content at all:
no partial read, no fallback, no default value. -/
theorem C4_missing_file (parts : List String) (fs : List String → Option String)
    (test strip : Bool) (data_dir : String) (mode : InputMode) (path : List String)
    (hp : read_input_path parts test data_dir = .ok path)
    (hf : fs path = none) :
    read_input parts fs test strip data_dir mode = .error "FileNotFoundError"
    ∧ ∀ v, read_input parts fs test strip data_dir mode ≠ .ok v := by
  have h : read_input parts fs test strip data_dir mode = .error "FileNotFoundError" := by
    rw [read_input]
    simp only [hp, hf]
  exact ⟨h, fun v hv => Except.noConfusion (h ▸ hv)⟩

/-- Witness for C4 on an empty filesystem. -/
theorem C4_missing_file_witness :
    read_input ["root", "y2024", "d01.py"] (fun _ => none) false true "../../data"
      InputMode.LINES = .error "FileNotFoundError" :=
  (C4_missing_file ["root", "y2024", "d01.py"] (fun _ => none) false true "../../data"
      InputMode.LINES ["root", "y2024", "..", "..", "data", "2024", "input01.txt"]
      rfl rfl).1
